import Mathlib

/-!
Verification model of the pyscript `state` module
(`custom_components/pyscript/state.py`).

Python strings are modelled as lists of characters (`Str`), so that
`str.split(".")` becomes an executable recursive function we can reason
about.  Python dicts are modelled as insertion-ordered association lists
(`alFind` / `alInsert` / `alErase` mirror `d[k]`, `d[k] = v`, `del d[k]`;
`alUpdate` mirrors `d.update(d2)`).  Asynchronous queue pushes performed by
`State.update` are modelled by returning the list of messages pushed, in
order, each tagged with the destination queue (queues are identified by
natural numbers).  Values and context payloads are natural numbers.
-/

namespace Pyscript

/-- Python strings, modelled as lists of characters. -/
abbrev Str := List Char

/-- Model of Python `s.split(".")`: splits on every occurrence of `'.'`,
always returns at least one (possibly empty) part. -/
def splitOnDot : Str → List Str
  | [] => [[]]
  | c :: rest =>
    if c = '.' then [] :: splitOnDot rest
    else
      match splitOnDot rest with
      | [] => [[c]]
      | h :: t => (c :: h) :: t

/-- Joins a list of parts with `'.'` separators (inverse of `splitOnDot`). -/
def joinDots : List Str → Str
  | [] => []
  | [p] => p
  | p :: ps => p ++ '.' :: joinDots ps

/-- Python `s.lower()` (character-wise). -/
def lower (s : Str) : Str := s.map Char.toLower

/-- Python `s.startswith(r)` : `strStarts r s` holds when `r` is an initial
segment of `s`. -/
def strStarts : Str → Str → Bool
  | [], _ => true
  | _, [] => false
  | a :: as, b :: bs => a == b && strStarts as bs

/-- Model of `root[0:root.rfind(".")]` and `root[root.rfind(".")+1:]`:
splits a string at its last `'.'` (only used on strings containing one). -/
def splitAtLastDot : Str → Str × Str
  | [] => ([], [])
  | c :: rest =>
    if '.' ∈ rest then
      ((splitAtLastDot rest).1.cons c, (splitAtLastDot rest).2)
    else if c = '.' then ([], rest)
    else (c :: rest, [])

section AssocList

variable {α β : Type} [DecidableEq α]

/-- Python `d.get(k)` / `k in d` lookup on an insertion-ordered dict. -/
def alFind : List (α × β) → α → Option β
  | [], _ => none
  | (k, v) :: t, key => if k = key then some v else alFind t key

/-- Python `d[k] = v`: replaces the value in place if the key is present
(keeping its position), otherwise appends at the end. -/
def alInsert : List (α × β) → α → β → List (α × β)
  | [], key, val => [(key, val)]
  | (k, v) :: t, key, val =>
    if k = key then (key, val) :: t else (k, v) :: alInsert t key val

/-- Python `del d[k]`: removes the first entry with the given key. -/
def alErase : List (α × β) → α → List (α × β)
  | [], _ => []
  | (k, v) :: t, key => if k = key then t else (k, v) :: alErase t key

/-- Python `k in d`. -/
def alContains (l : List (α × β)) (key : α) : Bool := (alFind l key).isSome

/-- Python `d.update(d2)`: inserts every entry of `d2` into `d` in order. -/
def alUpdate (l l2 : List (α × β)) : List (α × β) :=
  l2.foldl (fun acc p => alInsert acc p.1 p.2) l

/-- The keys of the association list are pairwise distinct (true of every
list that models a Python dict). -/
def noDupKeys : List (α × β) → Bool
  | [] => true
  | (k, _) :: t => !alContains t k && noDupKeys t

end AssocList

/-- The `var_names` argument of `notify_add` / `notify_del`: Python callers
pass either a list of names or a single bare string. -/
inductive VarNames where
  | list : List Str → VarNames
  | str : Str → VarNames
deriving DecidableEq

/-- Iteration performed by `notify_add` / `notify_del`:
`var_names if isinstance(var_names, list) else [var_names]`. -/
def addIter : VarNames → List Str
  | .list l => l
  | .str s => [s]

/-- Iteration performed by `notify_var_get`: `for var_name in var_names`.
A bare string iterates over its characters, each a 1-character string. -/
def getIter : Option VarNames → List Str
  | none => []
  | some (.list l) => l
  | some (.str s) => s.map (fun c => [c])

/-- The mutable fields of the Python `State` object: `self.notify` maps a
2-part subscription key to a dict from queue to the originally requested
`var_names`; `self.notify_var_last` is the last-value cache. -/
structure State where
  notify : List (Str × List (Nat × VarNames))
  notify_var_last : List (Str × Nat)
deriving DecidableEq

/-- The freshly constructed `State` (both dicts empty). -/
def initS : State := ⟨[], []⟩

/-- The validity test of `notify_add` / `notify_del`:
`len(parts) == 2 or len(parts) == 3`. -/
def validParts (s : Str) : Bool :=
  (splitOnDot s).length == 2 || (splitOnDot s).length == 3

/-- The subscription key `f"{parts[0]}.{parts[1]}"` (only used after the
`validParts` guard, which guarantees at least two parts). -/
def subKey (s : Str) : Str :=
  match splitOnDot s with
  | p0 :: p1 :: _ => p0 ++ '.' :: p1
  | _ => s

/-- One iteration of the `notify_add` loop body for name `var_name`,
registering the whole original `var_names` under the name's key. -/
def addOne (st : State) (var_name : Str) (queue : Nat) (var_names : VarNames) :
    State :=
  if validParts var_name then
    let key := subKey var_name
    let inner := (alFind st.notify key).getD []
    { st with notify := alInsert st.notify key (alInsert inner queue var_names) }
  else st

/-- `State.notify_add(var_names, queue)`. -/
def notify_add (st : State) (var_names : VarNames) (queue : Nat) : State :=
  (addIter var_names).foldl (fun s n => addOne s n queue var_names) st

/-- The loop of `State.notify_del`: on a missing key or missing queue the
Python code executes `return`, aborting the remaining names. -/
def delGo (queue : Nat) : State → List Str → State
  | st, [] => st
  | st, n :: rest =>
    if validParts n then
      match alFind st.notify (subKey n) with
      | none => st
      | some inner =>
        if alContains inner queue then
          delGo queue
            { st with notify := alInsert st.notify (subKey n) (alErase inner queue) }
            rest
        else st
    else delGo queue st rest

/-- `State.notify_del(var_names, queue)`. -/
def notify_del (st : State) (var_names : VarNames) (queue : Nat) : State :=
  delGo queue st (addIter var_names)

/-- `State.notify_var_get(var_names)`: collects the cached last values of
the requested names (iterating characters when `var_names` is a bare
string), omitting names that were never cached. -/
def notify_var_get (st : State) (var_names : Option VarNames) :
    List (Str × Nat) :=
  (getIter var_names).foldl
    (fun acc n =>
      match alFind st.notify_var_last n with
      | some v => alInsert acc n v
      | none => acc) []

/-- One message pushed by `State.update`:
`queue.put(["state", [notify_var_get(var_names), func_args]])`. -/
structure Msg where
  queue : Nat
  vals : List (Str × Nat)
  ctx : Nat
deriving DecidableEq

/-- The first loop of `State.update`: records changed subscribed variables
into the last-value cache and accumulates the affected consumers. -/
def updAcc : State → List (Nat × VarNames) → List (Str × Nat) →
    State × List (Nat × VarNames)
  | st, acc, [] => (st, acc)
  | st, acc, (k, v) :: rest =>
    match alFind st.notify k with
    | some inner =>
      updAcc { st with notify_var_last := alInsert st.notify_var_last k v }
        (alUpdate acc inner) rest
    | none => updAcc st acc rest

/-- `State.update(new_vars, func_args)`: returns the new state and the list
of messages pushed, in order. -/
def update (st : State) (new_vars : List (Str × Nat)) (func_args : Nat) :
    State × List Msg :=
  let p := updAcc st [] new_vars
  (p.1, p.2.map (fun qv => ⟨qv.1, notify_var_get p.1 (some qv.2), func_args⟩))

/-- The messages delivered to queue `c` (in order). -/
def msgsTo (c : Nat) (l : List Msg) : List Msg :=
  l.filter (fun m => m.queue == c)

/-- Whether queue `q` currently holds a registration under `k`'s
subscription key. -/
def subscribed (st : State) (k : Str) (q : Nat) : Bool :=
  alContains ((alFind st.notify (subKey k)).getD []) q

/-- Every key of the registry is a 2-part name (true of all states built
by the API, since `addOne` only ever inserts 2-part keys). -/
def keysOk (l : List (Str × List (Nat × VarNames))) : Bool :=
  l.all (fun p => (splitOnDot p.1).length == 2)

/-- Every inner dict of the registry has pairwise-distinct queue keys. -/
def innersOk (l : List (Str × List (Nat × VarNames))) : Bool :=
  l.all (fun p => noDupKeys p.2)

/-! ## Basic facts about `splitOnDot` -/

theorem splitOnDot_ne_nil : ∀ s : Str, splitOnDot s ≠ []
  | [] => by simp [splitOnDot]
  | c :: rest => by
    simp only [splitOnDot]
    split
    · simp
    · split <;> simp

theorem joinDots_splitOnDot : ∀ s : Str, joinDots (splitOnDot s) = s
  | [] => rfl
  | c :: rest => by
    have ih := joinDots_splitOnDot rest
    have hne := splitOnDot_ne_nil rest
    simp only [splitOnDot]
    by_cases hc : c = '.'
    · subst hc
      rw [if_pos rfl]
      cases h : splitOnDot rest with
      | nil => exact absurd h hne
      | cons a t =>
        rw [h] at ih
        simpa [joinDots] using ih
    · rw [if_neg hc]
      cases h : splitOnDot rest with
      | nil => exact absurd h hne
      | cons a t =>
        rw [h] at ih
        cases t with
        | nil =>
          simp only [joinDots] at ih ⊢
          rw [ih]
        | cons b t2 =>
          simp only [joinDots] at ih ⊢
          rw [List.cons_append, ih]

theorem subKey_eq_self {s : Str} (h : (splitOnDot s).length = 2) :
    subKey s = s := by
  have hj := joinDots_splitOnDot s
  cases h1 : splitOnDot s with
  | nil => simp [h1] at h
  | cons p0 t =>
    cases t with
    | nil => simp [h1] at h
    | cons p1 t2 =>
      cases t2 with
      | nil =>
        rw [h1] at hj
        simp only [joinDots] at hj
        simp [subKey, h1, hj]
      | cons p2 t3 => simp [h1] at h

theorem mem_splitOnDot_no_dot :
    ∀ (s : Str) (p : Str), p ∈ splitOnDot s → '.' ∉ p
  | [], p, hp => by
    simp [splitOnDot] at hp
    simp [hp]
  | c :: rest, p, hp => by
    by_cases hc : c = '.'
    · subst hc
      simp only [splitOnDot, if_pos rfl] at hp
      rcases List.mem_cons.1 hp with h | h
      · simp [h]
      · exact mem_splitOnDot_no_dot rest p h
    · simp only [splitOnDot, if_neg hc] at hp
      cases h : splitOnDot rest with
      | nil => exact absurd h (splitOnDot_ne_nil rest)
      | cons a t =>
        rw [h] at hp
        rcases List.mem_cons.1 hp with h1 | h1
        · subst h1
          intro hmem
          rcases List.mem_cons.1 hmem with h2 | h2
          · exact hc h2.symm
          · exact mem_splitOnDot_no_dot rest a (h ▸ List.mem_cons_self a t) h2
        · exact mem_splitOnDot_no_dot rest p (h ▸ List.mem_cons_of_mem a h1)

theorem no_dot_splitOnDot : ∀ {b : Str}, '.' ∉ b → splitOnDot b = [b]
  | [], _ => rfl
  | c :: rest, h => by
    have hc : ¬ c = '.' := fun hh => h (hh ▸ List.mem_cons_self c rest)
    have hrest : '.' ∉ rest := fun hh => h (List.mem_cons_of_mem c hh)
    simp only [splitOnDot, if_neg hc, no_dot_splitOnDot hrest]

theorem splitOnDot_append :
    ∀ (a b : Str), '.' ∉ a → splitOnDot (a ++ '.' :: b) = a :: splitOnDot b
  | [], b, _ => by simp [splitOnDot]
  | c :: a, b, h => by
    have hc : ¬ c = '.' := fun hh => h (hh ▸ List.mem_cons_self c a)
    have ha : '.' ∉ a := fun hh => h (List.mem_cons_of_mem c hh)
    have ih := splitOnDot_append a b ha
    simp only [List.cons_append, splitOnDot, if_neg hc, List.append_eq, ih]

theorem subKey_len2 {s : Str} (h : validParts s = true) :
    (splitOnDot (subKey s)).length = 2 := by
  have hv : (splitOnDot s).length = 2 ∨ (splitOnDot s).length = 3 := by
    simpa [validParts] using h
  cases h1 : splitOnDot s with
  | nil => simp [h1] at hv
  | cons p0 t =>
    cases t with
    | nil => simp [h1] at hv
    | cons p1 t2 =>
      have hp0 : '.' ∉ p0 :=
        mem_splitOnDot_no_dot s p0 (h1 ▸ List.mem_cons_self _ _)
      have hp1 : '.' ∉ p1 :=
        mem_splitOnDot_no_dot s p1
          (h1 ▸ List.mem_cons_of_mem _ (List.mem_cons_self _ _))
      simp [subKey, h1, splitOnDot_append p0 p1 hp0, no_dot_splitOnDot hp1]

theorem validParts_of_len2 {s : Str} (h : (splitOnDot s).length = 2) :
    validParts s = true := by
  simp [validParts, h]

/-! ## Basic facts about the association-list dictionaries -/

section AssocLemmas

variable {α β : Type} [DecidableEq α]

theorem alFind_insert_self (l : List (α × β)) (k : α) (v : β) :
    alFind (alInsert l k v) k = some v := by
  induction l with
  | nil => simp [alInsert, alFind]
  | cons p t ih =>
    obtain ⟨k', v'⟩ := p
    by_cases h : k' = k
    · simp [alInsert, if_pos h, alFind]
    · simp [alInsert, if_neg h, alFind, if_neg h, ih]

theorem alFind_insert_ne (l : List (α × β)) {k k' : α} (v : β)
    (h : k' ≠ k) : alFind (alInsert l k v) k' = alFind l k' := by
  have h' : ¬ k = k' := fun hh => h hh.symm
  induction l with
  | nil => simp [alInsert, alFind, h']
  | cons p t ih =>
    obtain ⟨k0, v0⟩ := p
    by_cases h0 : k0 = k
    · subst h0
      simp [alInsert, alFind, h']
    · by_cases h1 : k0 = k'
      · subst h1
        simp [alInsert, alFind, h0, h]
      · simp [alInsert, alFind, h0, h1, ih]

theorem alInsert_of_find {l : List (α × β)} {k : α} {v : β}
    (h : alFind l k = some v) : alInsert l k v = l := by
  induction l with
  | nil => simp [alFind] at h
  | cons p t ih =>
    obtain ⟨k0, v0⟩ := p
    by_cases h0 : k0 = k
    · subst h0
      simp only [alFind, eq_self_iff_true, if_true] at h
      rw [Option.some_inj] at h
      simp [alInsert, h]
    · simp only [alFind, if_neg h0] at h
      simp [alInsert, if_neg h0, ih h]

theorem alFind_mem {l : List (α × β)} {k : α} {v : β}
    (h : alFind l k = some v) : (k, v) ∈ l := by
  induction l with
  | nil => simp [alFind] at h
  | cons p t ih =>
    obtain ⟨k0, v0⟩ := p
    by_cases h0 : k0 = k
    · subst h0
      simp only [alFind, eq_self_iff_true, if_true] at h
      rw [Option.some_inj] at h
      simp [h]
    · simp only [alFind, if_neg h0] at h
      exact List.mem_cons_of_mem _ (ih h)

theorem alContains_false_not_mem {l : List (α × β)} {k : α}
    (h : alContains l k = false) : ∀ p ∈ l, p.1 ≠ k := by
  induction l with
  | nil => simp
  | cons p t ih =>
    obtain ⟨k0, v0⟩ := p
    by_cases h0 : k0 = k
    · simp [alContains, alFind, if_pos h0] at h
    · simp only [alContains, alFind, if_neg h0] at h
      intro q hq
      rcases List.mem_cons.1 hq with h1 | h1
      · simp [h1, h0]
      · exact ih h q h1

theorem alContains_insert (l : List (α × β)) (k k' : α) (v : β) :
    alContains (alInsert l k v) k' = true ↔
      k' = k ∨ alContains l k' = true := by
  by_cases h : k' = k
  · subst h
    simp [alContains, alFind_insert_self]
  · simp [alContains, alFind_insert_ne l v h, h]

theorem noDupKeys_insert {l : List (α × β)} (k : α) (v : β)
    (h : noDupKeys l = true) : noDupKeys (alInsert l k v) = true := by
  induction l with
  | nil => simp [alInsert, noDupKeys, alContains, alFind]
  | cons p t ih =>
    obtain ⟨k0, v0⟩ := p
    simp only [noDupKeys, Bool.and_eq_true, Bool.not_eq_true'] at h
    by_cases h0 : k0 = k
    · subst h0
      simp [alInsert, noDupKeys, h.1, h.2]
    · simp only [alInsert, if_neg h0, noDupKeys, Bool.and_eq_true,
        Bool.not_eq_true']
      refine ⟨?_, ih h.2⟩
      have : alContains (alInsert t k v) k0 = true ↔
          k0 = k ∨ alContains t k0 = true := alContains_insert t k k0 v
      rcases hc : alContains (alInsert t k v) k0 with _ | _
      · rfl
      · rcases this.1 hc with h1 | h1
        · exact absurd h1 h0
        · rw [h.1] at h1; exact absurd h1 (by simp)

theorem alErase_not_contains {l : List (α × β)} {k : α}
    (h : noDupKeys l = true) : alContains (alErase l k) k = false := by
  induction l with
  | nil => simp [alErase, alContains, alFind]
  | cons p t ih =>
    obtain ⟨k0, v0⟩ := p
    simp only [noDupKeys, Bool.and_eq_true, Bool.not_eq_true'] at h
    by_cases h0 : k0 = k
    · subst h0
      simpa [alErase] using h.1
    · have ihh := ih h.2
      simp only [alContains] at ihh
      simp [alErase, if_neg h0, alContains, alFind, ihh]

theorem mem_alErase {l : List (α × β)} {k : α} {p : α × β}
    (h : p ∈ alErase l k) : p ∈ l := by
  induction l with
  | nil => simpa [alErase] using h
  | cons q t ih =>
    obtain ⟨k1, v1⟩ := q
    by_cases h1 : k1 = k
    · simp only [alErase, if_pos h1] at h
      exact List.mem_cons_of_mem _ h
    · simp only [alErase, if_neg h1] at h
      rcases List.mem_cons.1 h with h2 | h2
      · exact h2 ▸ List.mem_cons_self _ _
      · exact List.mem_cons_of_mem _ (ih h2)

theorem noDupKeys_erase {l : List (α × β)} (k : α)
    (h : noDupKeys l = true) : noDupKeys (alErase l k) = true := by
  induction l with
  | nil => simp [alErase, noDupKeys]
  | cons p t ih =>
    obtain ⟨k0, v0⟩ := p
    simp only [noDupKeys, Bool.and_eq_true, Bool.not_eq_true'] at h
    by_cases h0 : k0 = k
    · simpa [alErase, if_pos h0] using h.2
    · simp only [alErase, if_neg h0, noDupKeys, Bool.and_eq_true,
        Bool.not_eq_true']
      refine ⟨?_, ih h.2⟩
      rcases hc : alContains (alErase t k) k0 with _ | _
      · rfl
      · exfalso
        simp only [alContains, Option.isSome_iff_exists] at hc
        obtain ⟨v, hv⟩ := hc
        exact alContains_false_not_mem h.1 (k0, v)
          (mem_alErase (alFind_mem hv)) rfl

theorem mem_alInsert {l : List (α × β)} {k : α} {v : β} {p : α × β}
    (h : p ∈ alInsert l k v) : p ∈ l ∨ p = (k, v) := by
  induction l with
  | nil => simpa [alInsert] using h
  | cons q t ih =>
    obtain ⟨k0, v0⟩ := q
    by_cases h0 : k0 = k
    · rw [alInsert, if_pos h0] at h
      rcases List.mem_cons.1 h with h1 | h1
      · exact Or.inr h1
      · exact Or.inl (List.mem_cons_of_mem _ h1)
    · rw [alInsert, if_neg h0] at h
      rcases List.mem_cons.1 h with h1 | h1
      · exact Or.inl (h1 ▸ List.mem_cons_self _ _)
      · rcases ih h1 with h2 | h2
        · exact Or.inl (List.mem_cons_of_mem _ h2)
        · exact Or.inr h2

theorem alContains_update (l l2 : List (α × β)) (k : α) :
    alContains (alUpdate l l2) k = true ↔
      alContains l k = true ∨ alContains l2 k = true := by
  induction l2 generalizing l with
  | nil => simp [alUpdate, alContains, alFind]
  | cons p t ih =>
    obtain ⟨k0, v0⟩ := p
    show alContains (alUpdate (alInsert l k0 v0) t) k = true ↔ _
    rw [ih (alInsert l k0 v0), alContains_insert]
    constructor
    · rintro (⟨h | h⟩ | h)
      · exact Or.inr (by simp [alContains, alFind, h])
      · exact Or.inl h
      · refine Or.inr ?_
        simp only [alContains, alFind]
        by_cases h0 : k0 = k
        · simp [if_pos h0]
        · simpa [if_neg h0] using h
    · rintro (h | h)
      · exact Or.inl (Or.inr h)
      · by_cases h0 : k0 = k
        · exact Or.inl (Or.inl h0.symm)
        · refine Or.inr ?_
          simpa [alContains, alFind, if_neg h0] using h

theorem filter_of_find {l : List (α × β)} {k : α} {v : β}
    (hnd : noDupKeys l = true) (h : alFind l k = some v) :
    l.filter (fun p => decide (p.1 = k)) = [(k, v)] := by
  induction l with
  | nil => simp [alFind] at h
  | cons p t ih =>
    obtain ⟨k0, v0⟩ := p
    simp only [noDupKeys, Bool.and_eq_true, Bool.not_eq_true'] at hnd
    by_cases h0 : k0 = k
    · subst h0
      simp only [alFind, eq_self_iff_true, if_true] at h
      rw [Option.some_inj] at h
      subst h
      have : t.filter (fun p => decide (p.1 = k0)) = [] := by
        apply List.filter_eq_nil.2
        intro p hp
        simpa using alContains_false_not_mem hnd.1 p hp
      simp [List.filter, this]
    · simp only [alFind, if_neg h0] at h
      simp [List.filter, h0, ih hnd.2 h]

end AssocLemmas

theorem bnot_true {b : Bool} (h : ¬ b = true) : b = false := by
  cases b
  · rfl
  · exact absurd rfl h

/-! ## Registration lemmas -/

/-- The fold of `notify_add`, abstracted over the stored request value. -/
def addList (st : State) (names : List Str) (queue : Nat) (vns : VarNames) :
    State :=
  names.foldl (fun s n => addOne s n queue vns) st

theorem notify_add_eq_addList (st : State) (names : List Str) (q : Nat) :
    notify_add st (.list names) q = addList st names q (.list names) := rfl

/-- The request list currently registered for queue `q` under `key`. -/
def regLookup (st : State) (key : Str) (q : Nat) : Option VarNames :=
  alFind ((alFind st.notify key).getD []) q

theorem regLookup_addOne_hit {st : State} {n : Str} {q : Nat}
    {vns : VarNames} (hv : validParts n = true) :
    regLookup (addOne st n q vns) (subKey n) q = some vns := by
  simp only [addOne, if_pos hv, regLookup, alFind_insert_self,
    Option.getD_some, alFind_insert_self]

theorem regLookup_addOne_miss {st : State} {n : Str} {key : Str} {q : Nat}
    {vns : VarNames}
    (h : validParts n = false ∨ subKey n ≠ key) :
    regLookup (addOne st n q vns) key q = regLookup st key q := by
  rcases h with h | h
  · simp [addOne, h]
  · by_cases hv : validParts n = true
    · simp only [addOne, if_pos hv, regLookup]
      rw [alFind_insert_ne _ _ (fun hh => h hh.symm)]
    · simp [addOne, bnot_true hv]

theorem addList_regLookup_preserved {l : List Str} {st : State} {key : Str}
    {q : Nat} {vns : VarNames}
    (h : regLookup st key q = some vns) :
    regLookup (addList st l q vns) key q = some vns := by
  induction l generalizing st with
  | nil => exact h
  | cons n t ih =>
    show regLookup (addList (addOne st n q vns) t q vns) key q = some vns
    apply ih
    by_cases hk : validParts n = true ∧ subKey n = key
    · rw [← hk.2, regLookup_addOne_hit hk.1]
    · rw [regLookup_addOne_miss ?_, h]
      rcases Decidable.not_and_iff_or_not.1 hk with h1 | h1
      · exact Or.inl (bnot_true h1)
      · exact Or.inr h1

theorem addList_registers {l : List Str} {st : State} {n : Str} {q : Nat}
    {vns : VarNames} (hmem : n ∈ l) (hv : validParts n = true) :
    regLookup (addList st l q vns) (subKey n) q = some vns := by
  induction l generalizing st with
  | nil => simp at hmem
  | cons m t ih =>
    rcases List.mem_cons.1 hmem with h | h
    · subst h
      show regLookup (addList (addOne st n q vns) t q vns) (subKey n) q =
        some vns
      exact addList_regLookup_preserved (regLookup_addOne_hit hv)
    · exact ih h

theorem addOne_outer_contains (st : State) (n : Str) (q : Nat)
    (vns : VarNames) (k : Str) :
    alContains (addOne st n q vns).notify k = true ↔
      alContains st.notify k = true ∨
        (validParts n = true ∧ subKey n = k) := by
  by_cases hv : validParts n = true
  · simp only [addOne, if_pos hv]
    rw [alContains_insert]
    constructor
    · rintro (h | h)
      · exact Or.inr ⟨hv, h.symm⟩
      · exact Or.inl h
    · rintro (h | h)
      · exact Or.inr h
      · exact Or.inl h.2.symm
  · simp [addOne, bnot_true hv, hv]

theorem addList_outer_contains (l : List Str) (st : State) (q : Nat)
    (vns : VarNames) (k : Str) :
    alContains (addList st l q vns).notify k = true ↔
      alContains st.notify k = true ∨
        ∃ n ∈ l, validParts n = true ∧ subKey n = k := by
  induction l generalizing st with
  | nil => simp [addList]
  | cons m t ih =>
    show alContains (addList (addOne st m q vns) t q vns).notify k = true ↔ _
    rw [ih (addOne st m q vns), addOne_outer_contains]
    constructor
    · rintro ((h | h) | ⟨n, hn, hv, hk⟩)
      · exact Or.inl h
      · exact Or.inr ⟨m, List.mem_cons_self _ _, h⟩
      · exact Or.inr ⟨n, List.mem_cons_of_mem _ hn, hv, hk⟩
    · rintro (h | ⟨n, hn, hv, hk⟩)
      · exact Or.inl (Or.inl h)
      · rcases List.mem_cons.1 hn with h1 | h1
        · exact Or.inl (Or.inr (h1 ▸ ⟨hv, hk⟩))
        · exact Or.inr ⟨n, h1, hv, hk⟩

theorem addList_malformed_id {l : List Str} {st : State} {q : Nat}
    {vns : VarNames} (h : ∀ n ∈ l, validParts n = false) :
    addList st l q vns = st := by
  induction l generalizing st with
  | nil => rfl
  | cons m t ih =>
    show addList (addOne st m q vns) t q vns = st
    rw [show addOne st m q vns = st by
      simp [addOne, h m (List.mem_cons_self _ _)]]
    exact ih (fun n hn => h n (List.mem_cons_of_mem _ hn))

theorem addOne_id {st : State} {n : Str} {q : Nat} {vns : VarNames}
    (hv : validParts n = true)
    (h : regLookup st (subKey n) q = some vns) :
    addOne st n q vns = st := by
  simp only [regLookup] at h
  cases hf : alFind st.notify (subKey n) with
  | none => rw [hf] at h; simp [alFind] at h
  | some inner =>
    rw [hf] at h
    simp only [Option.getD_some] at h
    simp only [addOne, if_pos hv, hf, Option.getD_some]
    rw [alInsert_of_find h, alInsert_of_find hf]

theorem addList_id {l : List Str} {st : State} {q : Nat} {vns : VarNames}
    (h : ∀ n ∈ l, validParts n = true →
      regLookup st (subKey n) q = some vns) :
    addList st l q vns = st := by
  induction l with
  | nil => rfl
  | cons m t ih =>
    show addList (addOne st m q vns) t q vns = st
    by_cases hv : validParts m = true
    · rw [addOne_id hv (h m (List.mem_cons_self _ _) hv)]
      exact ih (fun n hn hvn => h n (List.mem_cons_of_mem _ hn) hvn)
    · rw [show addOne st m q vns = st by
        simp [addOne, bnot_true hv]]
      exact ih (fun n hn hvn => h n (List.mem_cons_of_mem _ hn) hvn)

/-! ## Well-formedness preservation -/

theorem keysOk_iff (l : List (Str × List (Nat × VarNames))) :
    keysOk l = true ↔ ∀ p ∈ l, (splitOnDot p.1).length = 2 := by
  simp [keysOk, List.all_eq_true]

theorem innersOk_iff (l : List (Str × List (Nat × VarNames))) :
    innersOk l = true ↔ ∀ p ∈ l, noDupKeys p.2 = true := by
  simp [innersOk, List.all_eq_true]

theorem keysOk_addOne {st : State} {n : Str} {q : Nat} {vns : VarNames}
    (h : keysOk st.notify = true) :
    keysOk (addOne st n q vns).notify = true := by
  by_cases hv : validParts n = true
  · simp only [addOne, if_pos hv]
    rw [keysOk_iff]
    intro p hp
    rcases mem_alInsert hp with h1 | h1
    · exact (keysOk_iff _).1 h p h1
    · rw [h1]
      exact subKey_len2 hv
  · simpa [addOne, bnot_true hv] using h

theorem innersOk_addOne {st : State} {n : Str} {q : Nat} {vns : VarNames}
    (h : innersOk st.notify = true) :
    innersOk (addOne st n q vns).notify = true := by
  by_cases hv : validParts n = true
  · simp only [addOne, if_pos hv]
    rw [innersOk_iff]
    intro p hp
    rcases mem_alInsert hp with h1 | h1
    · exact (innersOk_iff _).1 h p h1
    · rw [h1]
      apply noDupKeys_insert
      cases hf : alFind st.notify (subKey n) with
      | none => rfl
      | some inner =>
        simpa using (innersOk_iff _).1 h _ (alFind_mem hf)
  · simpa [addOne, bnot_true hv] using h

theorem keysOk_addList {l : List Str} {st : State} {q : Nat}
    {vns : VarNames} (h : keysOk st.notify = true) :
    keysOk (addList st l q vns).notify = true := by
  induction l generalizing st with
  | nil => exact h
  | cons m t ih => exact ih (keysOk_addOne h)

theorem innersOk_addList {l : List Str} {st : State} {q : Nat}
    {vns : VarNames} (h : innersOk st.notify = true) :
    innersOk (addList st l q vns).notify = true := by
  induction l generalizing st with
  | nil => exact h
  | cons m t ih => exact ih (innersOk_addOne h)

theorem keysOk_delGo {l : List Str} {st : State} {q : Nat}
    (h : keysOk st.notify = true) :
    keysOk (delGo q st l).notify = true := by
  induction l generalizing st with
  | nil => exact h
  | cons n t ih =>
    by_cases hv : validParts n = true
    · cases hf : alFind st.notify (subKey n) with
      | none =>
        simp only [delGo, if_pos hv, hf]
        exact h
      | some inner =>
        by_cases hc : alContains inner q = true
        · simp only [delGo, if_pos hv, hf, hc, if_true]
          apply ih
          rw [keysOk_iff]
          intro p hp
          rcases mem_alInsert hp with h1 | h1
          · exact (keysOk_iff _).1 h p h1
          · rw [h1]
            exact subKey_len2 hv
        · simp only [delGo, if_pos hv, hf, if_neg hc]
          exact h
    · simp only [delGo, if_neg (by simpa using hv : ¬ validParts n = true)]
      exact ih h

theorem innersOk_delGo {l : List Str} {st : State} {q : Nat}
    (h : innersOk st.notify = true) :
    innersOk (delGo q st l).notify = true := by
  induction l generalizing st with
  | nil => exact h
  | cons n t ih =>
    by_cases hv : validParts n = true
    · cases hf : alFind st.notify (subKey n) with
      | none =>
        simp only [delGo, if_pos hv, hf]
        exact h
      | some inner =>
        by_cases hc : alContains inner q = true
        · simp only [delGo, if_pos hv, hf, hc, if_true]
          apply ih
          rw [innersOk_iff]
          intro p hp
          rcases mem_alInsert hp with h1 | h1
          · exact (innersOk_iff _).1 h p h1
          · rw [h1]
            apply noDupKeys_erase
            simpa using (innersOk_iff _).1 h _ (alFind_mem hf)
        · simp only [delGo, if_pos hv, hf, if_neg hc]
          exact h
    · simp only [delGo, if_neg (by simpa using hv : ¬ validParts n = true)]
      exact ih h

/-! ## Delivery lemmas for `update` -/

theorem msgs_filter_empty {acc : List (Nat × VarNames)} {c : Nat}
    (f : VarNames → List (Str × Nat)) (ctx : Nat)
    (h : alContains acc c = false) :
    msgsTo c (acc.map (fun qv => Msg.mk qv.1 (f qv.2) ctx)) = [] := by
  induction acc with
  | nil => rfl
  | cons p t ih =>
    obtain ⟨q0, vns0⟩ := p
    by_cases h0 : q0 = c
    · simp [alContains, alFind, h0] at h
    · simp only [alContains, alFind, if_neg h0] at h
      simp only [List.map_cons, msgsTo, List.filter]
      rw [show ((Msg.mk q0 (f vns0) ctx).queue == c) = false by
        simpa using h0]
      exact ih h

theorem update_not_subscribed {st : State} {k : Str} {q : Nat} {v ctx : Nat}
    (hkeys : keysOk st.notify = true)
    (hsub : subscribed st k q = false) :
    msgsTo q (update st [(k, v)] ctx).2 = [] := by
  simp only [update, updAcc]
  cases hf : alFind st.notify k with
  | none => rfl
  | some inner =>
    simp only [updAcc]
    have hkk : subKey k = k :=
      subKey_eq_self ((keysOk_iff _).1 hkeys _ (alFind_mem hf))
    rw [subscribed, hkk, hf, Option.getD_some] at hsub
    refine msgs_filter_empty
      (fun vns => notify_var_get
        { notify := st.notify,
          notify_var_last := alInsert st.notify_var_last k v }
        (some vns)) ctx ?_
    rcases hc : alContains (alUpdate [] inner) q with _ | _
    · rfl
    · rcases (alContains_update [] inner q).1 hc with h1 | h1
      · simp [alContains, alFind] at h1
      · rw [hsub] at h1
        exact absurd h1 (by simp)

/-! ## Concrete-shape helpers for the scenario claims -/

theorem add_single_init {k : Str} (h2 : (splitOnDot k).length = 2)
    (q : Nat) (vns : VarNames) :
    addOne initS k q vns = ⟨[(k, [(q, vns)])], []⟩ := by
  simp [addOne, validParts_of_len2 h2, subKey_eq_self h2, initS, alFind,
    alInsert]

theorem add_pair_init {k1 k2 : Str} (h1 : (splitOnDot k1).length = 2)
    (h2 : (splitOnDot k2).length = 2) (hne : k1 ≠ k2) (q : Nat)
    (vns : VarNames) :
    addList initS [k1, k2] q vns
      = ⟨[(k1, [(q, vns)]), (k2, [(q, vns)])], []⟩ := by
  simp [addList, List.foldl, addOne, validParts_of_len2 h1,
    validParts_of_len2 h2, subKey_eq_self h1, subKey_eq_self h2, initS,
    alFind, alInsert, hne, Ne.symm hne]

theorem foldl_nvg_none {last : List (Str × Nat)} {l : List Str}
    (h : ∀ n ∈ l, alFind last n = none) :
    ∀ acc, l.foldl (fun acc n =>
      match alFind last n with
      | some v => alInsert acc n v
      | none => acc) acc = acc := by
  induction l with
  | nil => intro acc; rfl
  | cons m t ih =>
    intro acc
    simp only [List.foldl]
    rw [h m (List.mem_cons_self _ _)]
    exact ih (fun n hn => h n (List.mem_cons_of_mem _ hn)) acc

theorem len_ge_two {k : Str} (h2 : (splitOnDot k).length = 2)
    (hne : k ≠ ['.']) : 2 ≤ k.length := by
  have hj := joinDots_splitOnDot k
  cases h1 : splitOnDot k with
  | nil => simp [h1] at h2
  | cons p0 t =>
    cases t with
    | nil => simp [h1] at h2
    | cons p1 t2 =>
      cases t2 with
      | cons p2 t3 => simp [h1] at h2
      | nil =>
        rw [h1] at hj
        simp only [joinDots] at hj
        cases p0 with
        | cons c p0t =>
          rw [← hj]
          simp
          omega
        | nil =>
          cases p1 with
          | nil => exact absurd hj.symm (by simpa using hne)
          | cons c p1t =>
            rw [← hj]
            simp

/-! ## The claims -/

/-- Claim C1: for every valid 2-part variable name `k`, every consumer
queue `q` and every value `v`, after `notify_add([k], q)` a call
`update({k: v}, ctx)` pushes exactly one message onto `q`, whose value
mapping is `{k: v}` and whose context payload is `ctx`. -/
theorem claim_C1 (k : Str) (q v ctx : Nat)
    (h : (splitOnDot k).length = 2) :
    msgsTo q (update (notify_add initS (.list [k]) q) [(k, v)] ctx).2
      = [⟨q, [(k, v)], ctx⟩] := by
  rw [show notify_add initS (.list [k]) q = addOne initS k q (.list [k])
    from rfl, add_single_init h]
  simp [update, updAcc, alFind, alUpdate, alInsert, notify_var_get, getIter,
    msgsTo, List.filter]

theorem claim_C1_witness :
    (splitOnDot ['a', '.', 'b']).length = 2
    ∧ msgsTo 0 (update (notify_add initS (.list [['a', '.', 'b']]) 0)
        [(['a', '.', 'b'], 1)] 2).2 = [⟨0, [(['a', '.', 'b'], 1)], 2⟩] :=
  ⟨by decide, claim_C1 ['a', '.', 'b'] 0 1 2 (by decide)⟩

/-- Claim C2: batch consolidation.  After a single
`notify_add([k1, k2], q)` for two distinct valid 2-part names, a single
`update({k1: v1, k2: v2}, ctx)` pushes exactly one message onto `q` (not
two), whose value mapping contains both `k1: v1` and `k2: v2`. -/
theorem claim_C2 (k1 k2 : Str) (q v1 v2 ctx : Nat)
    (h1 : (splitOnDot k1).length = 2) (h2 : (splitOnDot k2).length = 2)
    (hne : k1 ≠ k2) :
    msgsTo q (update (notify_add initS (.list [k1, k2]) q)
        [(k1, v1), (k2, v2)] ctx).2
      = [⟨q, [(k1, v1), (k2, v2)], ctx⟩] := by
  rw [notify_add_eq_addList, add_pair_init h1 h2 hne]
  simp [update, updAcc, alFind, alUpdate, alInsert, notify_var_get, getIter,
    msgsTo, List.filter, hne, Ne.symm hne]

theorem claim_C2_witness :
    ((splitOnDot ['a', '.', 'b']).length = 2
      ∧ (splitOnDot ['c', '.', 'd']).length = 2
      ∧ (['a', '.', 'b'] : Str) ≠ ['c', '.', 'd'])
    ∧ msgsTo 0 (update (notify_add initS
        (.list [['a', '.', 'b'], ['c', '.', 'd']]) 0)
        [(['a', '.', 'b'], 1), (['c', '.', 'd'], 2)] 3).2
      = [⟨0, [(['a', '.', 'b'], 1), (['c', '.', 'd'], 2)], 3⟩] :=
  ⟨⟨by decide, by decide, by decide⟩,
    claim_C2 ['a', '.', 'b'] ['c', '.', 'd'] 0 1 2 3
      (by decide) (by decide) (by decide)⟩

/-- Claim C3: last-value race freedom.  After `notify_add([k], q)`, then
`update({k: v1}, ctx1)`, then `update({k: v2}, ctx2)`: the message pushed
during the first update carries `v1` as `k`'s value, and after both
updates the last-value cache maps `k` to `v2`. -/
theorem claim_C3 (k : Str) (q v1 v2 ctx1 ctx2 : Nat)
    (h : (splitOnDot k).length = 2) :
    msgsTo q (update (notify_add initS (.list [k]) q) [(k, v1)] ctx1).2
      = [⟨q, [(k, v1)], ctx1⟩]
    ∧ alFind (update (update (notify_add initS (.list [k]) q)
        [(k, v1)] ctx1).1 [(k, v2)] ctx2).1.notify_var_last k
      = some v2 := by
  rw [show notify_add initS (.list [k]) q = addOne initS k q (.list [k])
    from rfl, add_single_init h]
  constructor
  · simp [update, updAcc, alFind, alUpdate, alInsert, notify_var_get,
      getIter, msgsTo, List.filter]
  · simp [update, updAcc, alFind, alUpdate, alInsert]

theorem claim_C3_witness :
    (splitOnDot ['a', '.', 'b']).length = 2
    ∧ (msgsTo 0 (update (notify_add initS (.list [['a', '.', 'b']]) 0)
        [(['a', '.', 'b'], 1)] 6).2 = [⟨0, [(['a', '.', 'b'], 1)], 6⟩]
      ∧ alFind (update (update (notify_add initS (.list [['a', '.', 'b']]) 0)
          [(['a', '.', 'b'], 1)] 6).1 [(['a', '.', 'b'], 2)] 7).1.notify_var_last
          ['a', '.', 'b']
        = some 2) :=
  ⟨by decide, claim_C3 ['a', '.', 'b'] 0 1 2 6 7 (by decide)⟩

/-- Claim C10 counterexample: the name `"."` passes the 2-part validity
test, yet when registered as a bare string and updated, the delivered
message's value mapping is `{".": v}` rather than the empty mapping the
claim asserts (iterating the characters of `"."` yields `"."` itself,
which is the recorded variable name). -/
theorem claim_C10_counterexample :
    (splitOnDot ['.']).length = 2
    ∧ msgsTo 0 (update (notify_add initS (.str ['.']) 0) [(['.'], 5)] 7).2
      = [⟨0, [(['.'], 5)], 7⟩] := by
  constructor
  · rfl
  · rfl

/-- Claim C10 (amended): for every valid 2-part name `k` other than the
one-character name `"."`, passing `k` to `notify_add` as a bare string
stores the string `k` itself as the consumer's request list, and a
subsequent `update({k: v}, ctx)` pushes one message onto the queue whose
value mapping is empty (the characters of `k` are iterated and none of
them is a recorded variable name). -/
theorem claim_C10 (k : Str) (q v ctx : Nat)
    (h2 : (splitOnDot k).length = 2) (hne : k ≠ ['.']) :
    (notify_add initS (.str k) q).notify = [(k, [(q, VarNames.str k)])]
    ∧ msgsTo q (update (notify_add initS (.str k) q) [(k, v)] ctx).2
      = [⟨q, [], ctx⟩] := by
  have hst : notify_add initS (.str k) q = ⟨[(k, [(q, .str k)])], []⟩ := by
    rw [show notify_add initS (.str k) q = addOne initS k q (.str k)
      from rfl]
    exact add_single_init h2 q _
  refine ⟨by rw [hst], ?_⟩
  rw [hst]
  have hnone : ∀ n ∈ k.map (fun c => [c]),
      alFind [(k, v)] n = none := by
    intro n hn
    simp only [List.mem_map] at hn
    obtain ⟨c, hc, hceq⟩ := hn
    subst hceq
    have hk : ¬ k = [c] := by
      intro hk
      have hlen := len_ge_two h2 hne
      rw [hk] at hlen
      simp at hlen
    simp [alFind, hk]
  have hnvg : notify_var_get ⟨[(k, [(q, .str k)])], [(k, v)]⟩
      (some (.str k)) = [] := by
    rw [notify_var_get]
    simp only [getIter]
    exact foldl_nvg_none hnone []
  simp [update, updAcc, alFind, alUpdate, alInsert, msgsTo, List.filter,
    hnvg]

theorem claim_C10_witness :
    ((splitOnDot ['a', '.', 'b']).length = 2
      ∧ (['a', '.', 'b'] : Str) ≠ ['.'])
    ∧ ((notify_add initS (.str ['a', '.', 'b']) 0).notify
        = [(['a', '.', 'b'], [(0, VarNames.str ['a', '.', 'b'])])]
      ∧ msgsTo 0 (update (notify_add initS (.str ['a', '.', 'b']) 0)
          [(['a', '.', 'b'], 5)] 7).2 = [⟨0, [], 7⟩]) :=
  ⟨⟨by decide, by decide⟩,
    claim_C10 ['a', '.', 'b'] 0 5 7 (by decide) (by decide)⟩


/-- Claim C4: if a queue `q` holds no current registration under `k`'s
subscription key — whether it was never added, or was removed again by
`notify_del` for the same (name, queue) after `notify_add` — then
`update({k: v}, ctx)` pushes no message onto `q`.  Stated for every state
whose registry keys are 2-part names with duplicate-free inner dicts
(true of every state the API can build). -/
theorem claim_C4 :
    (∀ (st : State) (k : Str) (q v ctx : Nat),
      keysOk st.notify = true → subscribed st k q = false →
      msgsTo q (update st [(k, v)] ctx).2 = [])
    ∧ (∀ (st : State) (k : Str) (q v ctx : Nat),
      keysOk st.notify = true → innersOk st.notify = true →
      validParts k = true →
      msgsTo q (update (notify_del (notify_add st (.list [k]) q)
        (.list [k]) q) [(k, v)] ctx).2 = []) := by
  constructor
  · intro st k q v ctx hkeys hsub
    exact update_not_subscribed hkeys hsub
  · intro st k q v ctx hkeys hinners hv
    have hnd0 : noDupKeys ((alFind st.notify (subKey k)).getD []) = true := by
      cases hf : alFind st.notify (subKey k) with
      | none => rfl
      | some i => simpa using (innersOk_iff _).1 hinners _ (alFind_mem hf)
    have hnd1 : noDupKeys
        (alInsert ((alFind st.notify (subKey k)).getD []) q
          (VarNames.list [k])) = true :=
      noDupKeys_insert _ _ hnd0
    have hst1 : (addOne st k q (.list [k])).notify
        = alInsert st.notify (subKey k)
          (alInsert ((alFind st.notify (subKey k)).getD []) q
            (.list [k])) := by
      simp [addOne, hv]
    have hfind1 : alFind (addOne st k q (.list [k])).notify (subKey k)
        = some (alInsert ((alFind st.notify (subKey k)).getD []) q
          (.list [k])) := by
      rw [hst1]
      exact alFind_insert_self _ _ _
    have hcont1 : alContains
        (alInsert ((alFind st.notify (subKey k)).getD []) q
          (.list [k])) q = true :=
      (alContains_insert _ _ _ _).2 (Or.inl rfl)
    have hst2 : notify_del (notify_add st (.list [k]) q) (.list [k]) q
        = { addOne st k q (.list [k]) with
            notify := alInsert (addOne st k q (.list [k])).notify (subKey k)
              (alErase (alInsert ((alFind st.notify (subKey k)).getD []) q
                (.list [k])) q) } := by
      show delGo q (addOne st k q (.list [k])) [k] = _
      simp only [delGo, if_pos hv, hfind1, hcont1, if_true]
    apply update_not_subscribed
    · show keysOk (delGo q (addOne st k q (.list [k])) [k]).notify = true
      exact keysOk_delGo (keysOk_addOne hkeys)
    · rw [hst2, subscribed]
      rw [show ({ addOne st k q (.list [k]) with
          notify := alInsert (addOne st k q (.list [k])).notify (subKey k)
            (alErase (alInsert ((alFind st.notify (subKey k)).getD []) q
              (.list [k])) q) } : State).notify
          = alInsert (addOne st k q (.list [k])).notify (subKey k)
            (alErase (alInsert ((alFind st.notify (subKey k)).getD []) q
              (.list [k])) q) from rfl]
      rw [alFind_insert_self, Option.getD_some]
      exact alErase_not_contains hnd1

theorem claim_C4_witness :
    ((keysOk initS.notify = true
        ∧ subscribed initS ['a', '.', 'b'] 0 = false)
      ∧ msgsTo 0 (update initS [(['a', '.', 'b'], 1)] 2).2 = [])
    ∧ ((keysOk initS.notify = true ∧ innersOk initS.notify = true
        ∧ validParts ['a', '.', 'b'] = true)
      ∧ msgsTo 0 (update (notify_del
          (notify_add initS (.list [['a', '.', 'b']]) 0)
          (.list [['a', '.', 'b']]) 0) [(['a', '.', 'b'], 1)] 2).2 = []) :=
  ⟨⟨⟨by decide, by decide⟩,
      claim_C4.1 initS ['a', '.', 'b'] 0 1 2 (by decide) (by decide)⟩,
    ⟨⟨by decide, by decide, by decide⟩,
      claim_C4.2 initS ['a', '.', 'b'] 0 1 2 (by decide) (by decide)
        (by decide)⟩⟩

/-- Claim C5: in `notify_add`, every name whose separator count is not 1
or 2 is skipped without creating any registry entry (a call consisting
only of malformed names leaves the state untouched, and every registry
key of the result comes from the old state or from a valid name), while
the remaining names of the same call are still registered normally. -/
theorem claim_C5 (st : State) (q : Nat) (names : List Str) :
    ((∀ n ∈ names, validParts n = false) →
      notify_add st (.list names) q = st)
    ∧ (∀ k, alContains (notify_add st (.list names) q).notify k = true ↔
        alContains st.notify k = true ∨
          ∃ n ∈ names, validParts n = true ∧ subKey n = k)
    ∧ (∀ n ∈ names, validParts n = true →
        regLookup (notify_add st (.list names) q) (subKey n) q
          = some (.list names)) := by
  refine ⟨?_, ?_, ?_⟩
  · intro h
    rw [notify_add_eq_addList]
    exact addList_malformed_id h
  · intro k
    rw [notify_add_eq_addList]
    exact addList_outer_contains names st q _ k
  · intro n hn hv
    rw [notify_add_eq_addList]
    exact addList_registers hn hv

theorem claim_C5_witness :
    ((['a', '.', 'b'] : Str) ∈ [['a', '.', 'b'], ['x']]
      ∧ validParts ['a', '.', 'b'] = true)
    ∧ regLookup (notify_add initS (.list [['a', '.', 'b'], ['x']]) 0)
        (subKey ['a', '.', 'b']) 0
      = some (.list [['a', '.', 'b'], ['x']]) :=
  ⟨⟨by decide, by decide⟩,
    (claim_C5 initS 0 [['a', '.', 'b'], ['x']]).2.2 ['a', '.', 'b']
      (by decide) (by decide)⟩

/-- Claim C6: when `notify_del` reaches a valid name whose subscription
key is absent from the registry, or whose key holds no entry for the
given queue, the removal for that name is a no-op and the whole call
stops immediately: the state is returned unchanged and every later name
in the input list is left unprocessed. -/
theorem claim_C6 (st : State) (q : Nat) (n : Str) (rest : List Str)
    (hv : validParts n = true)
    (hmiss : alContains ((alFind st.notify (subKey n)).getD []) q = false) :
    notify_del st (.list (n :: rest)) q = st := by
  show delGo q st (n :: rest) = st
  cases hf : alFind st.notify (subKey n) with
  | none => simp only [delGo, if_pos hv, hf]
  | some inner =>
    rw [hf, Option.getD_some] at hmiss
    simp [delGo, hv, hf, hmiss]

theorem claim_C6_witness :
    (validParts ['a', '.', 'b'] = true
      ∧ alContains ((alFind (notify_add initS (.list [['c', '.', 'd']])
          0).notify (subKey ['a', '.', 'b'])).getD []) 0 = false)
    ∧ notify_del (notify_add initS (.list [['c', '.', 'd']]) 0)
        (.list [['a', '.', 'b'], ['c', '.', 'd']]) 0
      = notify_add initS (.list [['c', '.', 'd']]) 0 :=
  ⟨⟨by decide, by decide⟩,
    claim_C6 (notify_add initS (.list [['c', '.', 'd']]) 0) 0
      ['a', '.', 'b'] [['c', '.', 'd']] (by decide) (by decide)⟩

/-- Claim C7: registration is idempotent — calling `notify_add` twice
with the same (names, queue) leaves exactly the state of a single call —
and re-registering the same queue under a key replaces its previous
request list: afterwards the inner dict of each affected key holds
exactly one entry for the queue, carrying the latest request list. -/
theorem claim_C7 :
    (∀ (st : State) (names : List Str) (q : Nat),
      notify_add (notify_add st (.list names) q) (.list names) q
        = notify_add st (.list names) q)
    ∧ (∀ (st : State) (names1 names2 : List Str) (q : Nat) (n : Str),
      innersOk st.notify = true → n ∈ names2 → validParts n = true →
      ((alFind (notify_add (notify_add st (.list names1) q)
          (.list names2) q).notify (subKey n)).getD []).filter
        (fun p => decide (p.1 = q))
        = [(q, VarNames.list names2)]) := by
  constructor
  · intro st names q
    rw [notify_add_eq_addList, notify_add_eq_addList]
    apply addList_id
    intro n hn hv
    exact addList_registers hn hv
  · intro st names1 names2 q n hinners hmem hv
    rw [notify_add_eq_addList, notify_add_eq_addList]
    have hreg : regLookup (addList (addList st names1 q (.list names1))
        names2 q (.list names2)) (subKey n) q = some (.list names2) :=
      addList_registers hmem hv
    have hinn2 : innersOk (addList (addList st names1 q (.list names1))
        names2 q (.list names2)).notify = true :=
      innersOk_addList (innersOk_addList hinners)
    rw [regLookup] at hreg
    cases hf : alFind (addList (addList st names1 q (.list names1))
        names2 q (.list names2)).notify (subKey n) with
    | none =>
      rw [hf] at hreg
      simp [alFind] at hreg
    | some inner =>
      rw [hf, Option.getD_some] at hreg
      rw [Option.getD_some]
      exact filter_of_find
        (by simpa using (innersOk_iff _).1 hinn2 _ (alFind_mem hf)) hreg

theorem claim_C7_witness :
    (innersOk initS.notify = true
      ∧ (['a', '.', 'b'] : Str) ∈ [(['a', '.', 'b'] : Str)]
      ∧ validParts ['a', '.', 'b'] = true)
    ∧ (notify_add (notify_add initS (.list [['a', '.', 'b']]) 0)
        (.list [['a', '.', 'b']]) 0
        = notify_add initS (.list [['a', '.', 'b']]) 0
      ∧ ((alFind (notify_add (notify_add initS (.list [['c', '.', 'd']]) 0)
          (.list [['a', '.', 'b']]) 0).notify
          (subKey ['a', '.', 'b'])).getD []).filter
          (fun p => decide (p.1 = 0))
        = [(0, VarNames.list [['a', '.', 'b']])]) :=
  ⟨⟨by decide, by decide, by decide⟩,
    ⟨claim_C7.1 initS [['a', '.', 'b']] 0,
      claim_C7.2 initS [['c', '.', 'd']] [['a', '.', 'b']] 0
        ['a', '.', 'b'] (by decide) (by decide) (by decide)⟩⟩


/-! ## The external store and the accessor surface -/

/-- The record held by the external store for one entity
(`hass.states.get(eid)` returns it or `None`). -/
structure EntityState where
  state : Nat
  attributes : List (Str × Nat)
deriving DecidableEq

/-- Modelled from the spec: the external VariableStore (`hass.states`), a
key-value service mapping entity ids to their state and attributes;
`enumerate_entity_ids` (`async_all`) is the key list. -/
abbrev Store := List (Str × EntityState)

/-- Modelled from the spec: the host's `valid_entity_id` — "validate name
is exactly 2-part" (exactly one separator). -/
def valid_entity_id (eid : Str) : Bool := (splitOnDot eid).length == 2

/-- Modelled from the spec: `hass.states.async_set(eid, state, attrs)` —
the VariableStore's `set_value_and_attributes`; replaces the entity's
state and attribute mapping (attributes are empty when omitted). -/
def async_set (store : Store) (eid : Str) (st : Nat)
    (attrs : List (Str × Nat)) : Store :=
  alInsert store eid ⟨st, attrs⟩

/-- The entity's existing attributes:
`getattr(hass.states.get(entity_id), "attributes", {})`. -/
def oldAttrsOf (store : Store) (eid : Str) : List (Str × Nat) :=
  match alFind store eid with
  | some es => es.attributes
  | none => []

/-- `State.set_new(entity_id, new_state, attributes)` — the setter
registered as `state.set`: validates the name, clears the attributes on
an explicit empty dict, otherwise merges the supplied attributes into
the entity's existing ones before writing. -/
def set_new (store : Store) (entity_id : Str) (new_state : Nat)
    (attributes : Option (List (Str × Nat))) : Store :=
  if valid_entity_id entity_id = false then store
  else if attributes = some [] then async_set store entity_id new_state []
  else
    async_set store entity_id new_state
      (match attributes with
        | some a => alUpdate (oldAttrsOf store entity_id) a
        | none => oldAttrsOf store entity_id)

/-- Python `words.add(a)` on the accumulated `set`, modelled on a
duplicate-free list. -/
def setAdd (l : List Str) (a : Str) : List Str :=
  if a ∈ l then l else l ++ [a]

/-- `State.completions(root)`: completions of state variable names.  With
two separators in `root`, attribute names of the one named entity are
matched; with fewer than two, all entity ids are matched; candidates are
lowercased before the prefix comparison. -/
def completions (store : Store) (root : Str) : List Str :=
  if root.count '.' = 2 then
    match alFind store (splitAtLastDot root).1 with
    | some value =>
      value.attributes.foldl
        (fun words p =>
          if strStarts (splitAtLastDot root).2 (lower p.1) then
            setAdd words ((splitAtLastDot root).1 ++ '.' :: p.1)
          else words) []
    | none => []
  else if root.count '.' < 2 then
    store.foldl
      (fun words p =>
        if strStarts root (lower p.1) then setAdd words p.1 else words) []
  else []

theorem mem_setAdd {l : List Str} {a w : Str} :
    w ∈ setAdd l a ↔ w ∈ l ∨ w = a := by
  unfold setAdd
  by_cases h : a ∈ l
  · rw [if_pos h]
    constructor
    · exact Or.inl
    · rintro (h1 | rfl)
      · exact h1
      · exact h
  · rw [if_neg h]
    simp

theorem nodup_setAdd {l : List Str} (a : Str) (h : l.Nodup) :
    (setAdd l a).Nodup := by
  unfold setAdd
  by_cases hm : a ∈ l
  · rw [if_pos hm]
    exact h
  · rw [if_neg hm]
    simp [List.nodup_append, h, hm]

theorem foldl_setAdd_mem {α : Type} (cond : α → Bool) (f : α → Str)
    (l : List α) (ws : List Str) (w : Str) :
    w ∈ l.foldl (fun ws x => if cond x then setAdd ws (f x) else ws) ws ↔
      w ∈ ws ∨ ∃ x ∈ l, cond x = true ∧ w = f x := by
  induction l generalizing ws with
  | nil => simp
  | cons y t ih =>
    simp only [List.foldl]
    by_cases hy : cond y = true
    · rw [if_pos hy, ih, mem_setAdd]
      constructor
      · rintro ((h | rfl) | ⟨x, hx, hc, hw⟩)
        · exact Or.inl h
        · exact Or.inr ⟨y, List.mem_cons_self _ _, hy, rfl⟩
        · exact Or.inr ⟨x, List.mem_cons_of_mem _ hx, hc, hw⟩
      · rintro (h | ⟨x, hx, hc, hw⟩)
        · exact Or.inl (Or.inl h)
        · rcases List.mem_cons.1 hx with h1 | h1
          · subst h1
            exact Or.inl (Or.inr hw)
          · exact Or.inr ⟨x, h1, hc, hw⟩
    · rw [if_neg hy, ih]
      constructor
      · rintro (h | ⟨x, hx, hc, hw⟩)
        · exact Or.inl h
        · exact Or.inr ⟨x, List.mem_cons_of_mem _ hx, hc, hw⟩
      · rintro (h | ⟨x, hx, hc, hw⟩)
        · exact Or.inl h
        · rcases List.mem_cons.1 hx with h1 | h1
          · subst h1
            exact absurd hc hy
          · exact Or.inr ⟨x, h1, hc, hw⟩

theorem foldl_setAdd_nodup {α : Type} (cond : α → Bool) (f : α → Str)
    (l : List α) (ws : List Str) (h : ws.Nodup) :
    (l.foldl (fun ws x => if cond x then setAdd ws (f x) else ws) ws).Nodup := by
  induction l generalizing ws with
  | nil => exact h
  | cons y t ih =>
    simp only [List.foldl]
    by_cases hy : cond y = true
    · rw [if_pos hy]
      exact ih _ (nodup_setAdd _ h)
    · rw [if_neg hy]
      exact ih _ h

/-- Claim C8: the setter (`set_new`, registered as `state.set`) validates
that its name is exactly 2-part, rejecting other shapes as a no-op;
with a non-empty explicit attributes argument it merges the overrides
into the entity's existing attributes before writing; with an explicit
empty attributes argument it clears all attributes instead of merging. -/
theorem claim_C8 (store : Store) (eid : Str) (s : Nat)
    (attrs : Option (List (Str × Nat))) :
    (valid_entity_id eid = false → set_new store eid s attrs = store)
    ∧ (∀ a, valid_entity_id eid = true → attrs = some a → a ≠ [] →
        alFind (set_new store eid s attrs) eid
          = some ⟨s, alUpdate (oldAttrsOf store eid) a⟩)
    ∧ (valid_entity_id eid = true →
        alFind (set_new store eid s (some [])) eid = some ⟨s, []⟩) := by
  refine ⟨?_, ?_, ?_⟩
  · intro h
    simp [set_new, h]
  · intro a hvalid ha hne
    subst ha
    simp only [set_new, hvalid, Bool.true_eq_false, if_false,
      Option.some_inj, if_neg hne, async_set]
    exact alFind_insert_self _ _ _
  · intro hvalid
    simp only [set_new, hvalid, Bool.true_eq_false, if_false, if_pos rfl,
      async_set]
    exact alFind_insert_self _ _ _

theorem claim_C8_witness :
    (valid_entity_id ['x'] = false
      ∧ valid_entity_id ['a', '.', 'b'] = true
      ∧ (some [(['x'], 2)] : Option (List (Str × Nat))) = some [(['x'], 2)]
      ∧ ([(['x'], 2)] : List (Str × Nat)) ≠ [])
    ∧ (set_new [] ['x'] 5 none = []
      ∧ alFind (set_new [] ['a', '.', 'b'] 5 (some [(['x'], 2)]))
          ['a', '.', 'b']
        = some ⟨5, alUpdate (oldAttrsOf [] ['a', '.', 'b']) [(['x'], 2)]⟩
      ∧ alFind (set_new [] ['a', '.', 'b'] 5 (some [])) ['a', '.', 'b']
        = some ⟨5, []⟩) :=
  ⟨⟨by decide, by decide, rfl, by decide⟩,
    ⟨(claim_C8 [] ['x'] 5 none).1 (by decide),
      (claim_C8 [] ['a', '.', 'b'] 5 (some [(['x'], 2)])).2.1 [(['x'], 2)]
        (by decide) rfl (by decide),
      (claim_C8 [] ['a', '.', 'b'] 5 (some [])).2.2 (by decide)⟩⟩

/-- Example store for claim C9: entities `light.kitchen` and
`light.living_room`. -/
def egStore : Store :=
  [(['l', 'i', 'g', 'h', 't', '.', 'k', 'i', 't', 'c', 'h', 'e', 'n'],
      ⟨0, []⟩),
   (['l', 'i', 'g', 'h', 't', '.', 'l', 'i', 'v', 'i', 'n', 'g', '_',
      'r', 'o', 'o', 'm'], ⟨0, []⟩)]

/-- Claim C9 counterexample: with entities `light.kitchen` and
`light.living_room`, the all-lowercase prefix `"light.k"` matches
`light.kitchen`, but the case variant `"Light.k"` matches nothing: only
the candidate is lowercased before the comparison, so a match is NOT
found regardless of the letter case of the prefix. -/
theorem claim_C9_counterexample :
    completions egStore ['l', 'i', 'g', 'h', 't', '.', 'k']
      = [['l', 'i', 'g', 'h', 't', '.', 'k', 'i', 't', 'c', 'h', 'e', 'n']]
    ∧ completions egStore ['L', 'i', 'g', 'h', 't', '.', 'k'] = [] := by
  constructor
  · rfl
  · rfl

/-- Claim C9 (amended): `completions(prefix)` returns a duplicate-free
collection of prefix matches — over full entity names when the prefix
contains 0 or 1 separators, and over attribute-qualified names of the
one entity named by the prefix (up to its last separator) when it
contains 2 separators.  The candidate name is lowercased before the
comparison, so a match is found regardless of the candidate's letter
case, but the prefix is compared verbatim (an uppercase prefix may
match nothing). -/
theorem claim_C9 (store : Store) (root w : Str) :
    (completions store root).Nodup
    ∧ (root.count '.' = 2 →
        (w ∈ completions store root ↔
          ∃ es, alFind store (splitAtLastDot root).1 = some es ∧
            ∃ p ∈ es.attributes,
              strStarts (splitAtLastDot root).2 (lower p.1) = true ∧
              w = (splitAtLastDot root).1 ++ '.' :: p.1))
    ∧ (root.count '.' < 2 →
        (w ∈ completions store root ↔
          ∃ p ∈ store, strStarts root (lower p.1) = true ∧ w = p.1)) := by
  refine ⟨?_, ?_, ?_⟩
  · unfold completions
    by_cases h2 : root.count '.' = 2
    · rw [if_pos h2]
      cases hf : alFind store (splitAtLastDot root).1 with
      | none => exact List.nodup_nil
      | some value => exact foldl_setAdd_nodup _ _ _ _ List.nodup_nil
    · rw [if_neg h2]
      by_cases hlt : root.count '.' < 2
      · rw [if_pos hlt]
        exact foldl_setAdd_nodup _ _ _ _ List.nodup_nil
      · rw [if_neg hlt]
        exact List.nodup_nil
  · intro h2
    unfold completions
    rw [if_pos h2]
    cases hf : alFind store (splitAtLastDot root).1 with
    | none => simp
    | some value =>
      rw [foldl_setAdd_mem
        (fun p => strStarts (splitAtLastDot root).2 (lower p.1))
        (fun p => (splitAtLastDot root).1 ++ '.' :: p.1)
        value.attributes [] w]
      simp
  · intro hlt
    have h2 : ¬ root.count '.' = 2 := by omega
    unfold completions
    rw [if_neg h2, if_pos hlt]
    rw [foldl_setAdd_mem (fun p => strStarts root (lower p.1))
      (fun p => p.1) store [] w]
    simp only [List.mem_nil_iff, false_or]

theorem claim_C9_witness :
    ((['l', 'i', 'g', 'h', 't', '.', 'k'] : Str).count '.' < 2)
    ∧ ((['l', 'i', 'g', 'h', 't', '.', 'k', 'i', 't', 'c', 'h', 'e', 'n'] :
        Str) ∈ completions egStore ['l', 'i', 'g', 'h', 't', '.', 'k'] ↔
      ∃ p ∈ egStore,
        strStarts ['l', 'i', 'g', 'h', 't', '.', 'k'] (lower p.1) = true ∧
        ['l', 'i', 'g', 'h', 't', '.', 'k', 'i', 't', 'c', 'h', 'e', 'n']
          = p.1) :=
  ⟨by decide,
    (claim_C9 egStore ['l', 'i', 'g', 'h', 't', '.', 'k']
      ['l', 'i', 'g', 'h', 't', '.', 'k', 'i', 't', 'c', 'h', 'e', 'n']).2.2
      (by decide)⟩


end Pyscript
